import Mathlib

/-!
Verification of the paast paste service against its specification.

The program (src/main.go) is a small HTTP paste service.  This file gives a
shallow embedding of its core: the counter file handling (`ReadCounter`,
`WriteCounter`), paste creation (`CreatePaste`), paste retrieval
(`RetrievePaste`), the submission throttle (`RateLimit`), and the identifier
codec configuration.  Stateful code is embedded as explicit state passing;
the order of the durable writes performed by `CreatePaste` is recorded as an
explicit event trace.  Machine integers (`int64`) are modelled as `Int` with
explicit wrap-around where overflow could matter; fallible operations return
`Option`.

The identifier codec itself (the go-hashids library) is an external
dependency whose source is not part of this repository; it is modelled from
the specification (section 4.1), as flagged on each such definition.
-/

/-- Model of Go `unicode.IsSpace` restricted to ASCII whitespace, the only
whitespace relevant to `strings.TrimSpace` as used on counter files written
by this program (which contain only ASCII decimal digits). -/
def goIsSpace (c : Char) : Bool :=
  c = ' ' || c = '\t' || c = '\n' || c = '\x0b' || c = '\x0c' || c = '\r'

/-- Model of Go `strings.TrimSpace`: drop whitespace from both ends. -/
def goTrimSpace (s : String) : String :=
  ⟨((s.toList.dropWhile goIsSpace).reverse.dropWhile goIsSpace).reverse⟩

/-- Numeric value of an ASCII decimal digit character. -/
def digitVal (c : Char) : Option Nat :=
  if 48 ≤ c.toNat ∧ c.toNat ≤ 57 then some (c.toNat - 48) else none

/-- Accumulating decimal digit loop of Go `strconv.ParseInt`. -/
def parseDigitsAux : Nat → List Char → Option Nat
  | acc, [] => some acc
  | acc, c :: cs =>
    match digitVal c with
    | none => none
    | some d => parseDigitsAux (acc * 10 + d) cs

/-- Model of Go `strconv.ParseInt(s, 10, 64)`: an optional leading sign
followed by one or more ASCII digits, with the value required to fit in
int64; every other input (including the empty string) is an error,
modelled as `none`.  A range error is also an error in Go, hence `none`. -/
def parseInt64 (s : String) : Option Int :=
  let cs := s.toList
  let ds := if cs.headD ' ' = '-' ∨ cs.headD ' ' = '+' then cs.tail else cs
  if ds = [] then none
  else
    match parseDigitsAux 0 ds with
    | none => none
    | some n =>
      let v : Int := if cs.headD ' ' = '-' then -(n : Int) else (n : Int)
      if -(2 ^ 63) ≤ v ∧ v ≤ 2 ^ 63 - 1 then some v else none

/-- ASCII character of a decimal digit. -/
def digitChar10 (d : Nat) : Char := Char.ofNat (48 + d)

/-- Decimal rendering of a natural number. -/
def natDecimal (n : Nat) : String :=
  if n = 0 then "0" else ⟨((Nat.digits 10 n).map digitChar10).reverse⟩

/-- Decimal rendering of an int64 value; models Go `fmt.Sprint(value)` as used
by `WriteCounter` (src/main.go line 76). -/
def intDecimal (v : Int) : String :=
  if v < 0 then "-" ++ natDecimal v.natAbs else natDecimal v.toNat

/-- Left-pad a string with zeros to a total width (Go `fmt` zero flag). -/
def padZeros (w : Nat) (s : String) : String :=
  ⟨List.replicate (w - s.length) '0'⟩ ++ s

/-- Model of Go `fmt.Sprintf("%09d", v)`: zero-pad to overall width 9, a
minus sign counting towards the width. -/
def pad9 (v : Int) : String :=
  if v < 0 then "-" ++ padZeros 8 (natDecimal v.natAbs) else padZeros 9 (natDecimal v.toNat)

/-- Two's-complement wrap-around of Go `int64` arithmetic, used to model the
`counter++` increment faithfully. -/
def wrap64 (x : Int) : Int := (x + 2 ^ 63) % 2 ^ 64 - 2 ^ 63

/-- The identifier alphabet: the `Alphabet` constant of src/main.go line 26. -/
def Alphabet : List Char := "abcdefghijklmnopqrstuvwxyz1234567890".toList

/-- Modelled from the spec: the identifier codec is backed by the external
go-hashids library, whose source is not part of this repository.  Per
section 4.1 the codec is deterministic and salted: a different salt yields a
materially different identifier space.  The salt-dependent permutation of
the alphabet captures that. -/
def saltedAlphabet (salt : String) : List Char :=
  Alphabet.rotate ((salt.toList.map Char.toNat).sum % Alphabet.length)

/-- Most-significant-first value of a digit list in base `b`. -/
def digitsVal (b : Nat) : List Nat → Nat
  | [] => 0
  | d :: ds => d * b ^ ds.length + digitsVal b ds

/-- Modelled from the spec: `Encode(ordinal) -> identifier` of the codec
(section 4.1), at the configuration installed by `NewHttpRoutes`
(src/main.go lines 87-99): the fixed 36-character alphabet and minimum
length 3.  The ordinal is offset by `36 ^ 2` before base-36 conversion so
that every identifier has at least 3 characters without literal padding
characters, and the digits are drawn from the salt-permuted alphabet. -/
def encodeNum (salt : String) (n : Nat) : String :=
  ⟨((Nat.digits 36 (n + 36 ^ 2)).map fun d => (saltedAlphabet salt).getD d ' ').reverse⟩

/-- Position of a character in a list, `none` when absent. -/
def charIndexAux (c : Char) : List Char → Option Nat
  | [] => none
  | a :: as => if a = c then some 0 else (charIndexAux c as).map (· + 1)

/-- Position of a character in the salted alphabet. -/
def charIndex (salt : String) (c : Char) : Option Nat :=
  charIndexAux c (saltedAlphabet salt)

/-- Digit values of an identifier's characters; fails on any character
outside the salted alphabet. -/
def decodeDigits (salt : String) : List Char → Option (List Nat)
  | [] => some []
  | c :: cs =>
    match charIndex salt c, decodeDigits salt cs with
    | some d, some ds => some (d :: ds)
    | _, _ => none

/-- Modelled from the spec: `Decode(identifier) -> ordinal or failure` of the
codec (section 4.1).  Decode fails cleanly on malformed or foreign strings:
the empty string, strings with characters outside the alphabet, and strings
that are not the encoding of any ordinal. -/
def decodeNum (salt : String) (s : String) : Option Nat :=
  match decodeDigits salt s.toList with
  | none => none
  | some ds =>
    if ds = [] then none
    else if 36 ^ 2 ≤ digitsVal 36 ds then some (digitsVal 36 ds - 36 ^ 2) else none

/-- Modelled from the spec: the encode entry point as used by `CreatePaste`
(src/main.go line 190) on an int64 counter; encoding a negative ordinal is a
failure (the spec's encode contract takes a non-negative integer). -/
def encodeId (salt : String) (v : Int) : Option String :=
  if v < 0 then none else some (encodeNum salt v.toNat)

/-- Modelled from the spec: the decode entry point as used by
`RetrievePaste` (src/main.go line 233). -/
def decodeId (salt : String) (s : String) : Option Int :=
  (decodeNum salt s).map Int.ofNat

/-! ### Codec lemmas -/

theorem Alphabet_nodup : Alphabet.Nodup := by decide

theorem Alphabet_length : Alphabet.length = 36 := by decide

theorem saltedAlphabet_nodup (salt : String) : (saltedAlphabet salt).Nodup :=
  List.nodup_rotate.mpr Alphabet_nodup

theorem saltedAlphabet_length (salt : String) : (saltedAlphabet salt).length = 36 := by
  rw [saltedAlphabet, List.length_rotate, Alphabet_length]

theorem charIndexAux_getElem (l : List Char) (hl : l.Nodup) (i : Nat) (h : i < l.length) :
    charIndexAux l[i] l = some i := by
  induction l generalizing i with
  | nil => simp at h
  | cons a as ih =>
    cases i with
    | zero => simp [charIndexAux]
    | succ j =>
      have hj : j < as.length := by simpa using h
      have hmem : as[j] ∈ as := List.getElem_mem hj
      have hne : a ≠ as[j] := by
        intro heq
        exact (List.nodup_cons.mp hl).1 (heq ▸ hmem)
      simp only [List.getElem_cons_succ, charIndexAux, if_neg hne]
      rw [ih (List.nodup_cons.mp hl).2 j hj]
      rfl

theorem charIndex_getD (salt : String) (d : Nat) (hd : d < 36) :
    charIndex salt ((saltedAlphabet salt).getD d ' ') = some d := by
  have hlen : d < (saltedAlphabet salt).length := by rw [saltedAlphabet_length]; exact hd
  rw [List.getD_eq_getElem _ _ hlen]
  exact charIndexAux_getElem _ (saltedAlphabet_nodup salt) d hlen

theorem decodeDigits_map (salt : String) (ds : List Nat) (h : ∀ d ∈ ds, d < 36) :
    decodeDigits salt (ds.map fun d => (saltedAlphabet salt).getD d ' ') = some ds := by
  induction ds with
  | nil => rfl
  | cons d rest ih =>
    have hd : d < 36 := h d (List.mem_cons_self d rest)
    have hrest : ∀ x ∈ rest, x < 36 := fun x hx => h x (List.mem_cons_of_mem d hx)
    simp only [List.map_cons, decodeDigits, charIndex_getD salt d hd, ih hrest]

theorem digitsVal_eq_ofDigits (b : Nat) (l : List Nat) :
    digitsVal b l = Nat.ofDigits b l.reverse := by
  induction l with
  | nil => simp [digitsVal, Nat.ofDigits]
  | cons d ds ih =>
    rw [digitsVal, ih, List.reverse_cons, Nat.ofDigits_append, Nat.ofDigits_singleton,
      List.length_reverse]
    ring

theorem digitsVal_reverse_digits (b m : Nat) :
    digitsVal b (Nat.digits b m).reverse = m := by
  rw [digitsVal_eq_ofDigits, List.reverse_reverse, Nat.ofDigits_digits]

theorem decodeNum_encodeNum (salt : String) (n : Nat) :
    decodeNum salt (encodeNum salt n) = some n := by
  have hne : Nat.digits 36 (n + 36 ^ 2) ≠ [] :=
    Nat.digits_ne_nil_iff_ne_zero.mpr (by positivity)
  have hlt : ∀ d ∈ (Nat.digits 36 (n + 36 ^ 2)).reverse, d < 36 := by
    intro d hd
    exact Nat.digits_lt_base (by norm_num) (List.mem_reverse.mp hd)
  have htl : (encodeNum salt n).toList
      = ((Nat.digits 36 (n + 36 ^ 2)).reverse.map
          fun d => (saltedAlphabet salt).getD d ' ') := by
    show ((Nat.digits 36 (n + 36 ^ 2)).map fun d => (saltedAlphabet salt).getD d ' ').reverse
      = ((Nat.digits 36 (n + 36 ^ 2)).reverse.map fun d => (saltedAlphabet salt).getD d ' ')
    rw [List.map_reverse]
  have hrevne : (Nat.digits 36 (n + 36 ^ 2)).reverse ≠ [] := by
    simp [hne]
  rw [decodeNum, htl, decodeDigits_map salt _ hlt]
  simp only [if_neg hrevne, digitsVal_reverse_digits]
  rw [if_pos (Nat.le_add_left _ _)]
  simp

/-- Claim C2: codec round trip.  For every non-negative int64 ordinal `n`
and any salt, with the fixed alphabet and minimum length 3, decoding the
identifier produced by encoding `n` yields exactly `n`. -/
theorem codec_roundtrip (salt : String) (n : Int) (h : 0 ≤ n) :
    (encodeId salt n).bind (decodeId salt) = some n := by
  rw [encodeId, if_neg (not_lt.mpr h), Option.some_bind, decodeId,
    decodeNum_encodeNum]
  simp [Int.toNat_of_nonneg h]

/-- Witness for claim C2 at the concrete ordinal 5. -/
theorem codec_roundtrip_witness :
    (0 : Int) ≤ 5 ∧ (encodeId "" 5).bind (decodeId "") = some 5 :=
  ⟨by norm_num, codec_roundtrip "" 5 (by norm_num)⟩

/-! ### Decimal rendering and parsing lemmas -/

theorem digitVal_digitChar10 : ∀ d, d < 10 → digitVal (digitChar10 d) = some d := by decide

theorem digitChar10_not_space : ∀ d, d < 10 → goIsSpace (digitChar10 d) = false := by decide

theorem digitChar10_ne_sign : ∀ d, d < 10 → digitChar10 d ≠ '-' ∧ digitChar10 d ≠ '+' := by
  decide

theorem digitChar10_isDigit : ∀ d, d < 10 → 48 ≤ (digitChar10 d).toNat ∧ (digitChar10 d).toNat ≤ 57 := by
  decide

theorem dropWhile_eq_self_of (p : Char → Bool) (l : List Char) (h : ∀ c ∈ l, p c = false) :
    l.dropWhile p = l := by
  cases l with
  | nil => rfl
  | cons a as =>
    rw [List.dropWhile_cons, if_neg]
    simp [h a (List.mem_cons_self a as)]

theorem goTrimSpace_eq_self (s : String) (h : ∀ c ∈ s.toList, goIsSpace c = false) :
    goTrimSpace s = s := by
  apply String.ext
  show ((s.toList.dropWhile goIsSpace).reverse.dropWhile goIsSpace).reverse = s.data
  rw [dropWhile_eq_self_of _ _ h, dropWhile_eq_self_of, List.reverse_reverse]
  · rfl
  · intro c hc
    exact h c (List.mem_reverse.mp hc)

theorem natDecimal_chars (n : Nat) :
    ∀ c ∈ (natDecimal n).toList, ∃ d, d < 10 ∧ c = digitChar10 d := by
  intro c hc
  by_cases h0 : n = 0
  · subst h0
    have : c = '0' := by
      simpa [natDecimal] using hc
    exact ⟨0, by norm_num, by rw [this]; rfl⟩
  · rw [natDecimal, if_neg h0] at hc
    have hmem : c ∈ ((Nat.digits 10 n).map digitChar10).reverse := hc
    obtain ⟨d, hd, rfl⟩ := List.mem_map.mp (List.mem_reverse.mp hmem)
    exact ⟨d, Nat.digits_lt_base (by norm_num) hd, rfl⟩

theorem goTrimSpace_natDecimal (n : Nat) : goTrimSpace (natDecimal n) = natDecimal n := by
  apply goTrimSpace_eq_self
  intro c hc
  obtain ⟨d, hd, rfl⟩ := natDecimal_chars n c hc
  exact digitChar10_not_space d hd

theorem parseDigitsAux_map (ds : List Nat) (h : ∀ d ∈ ds, d < 10) :
    ∀ acc, parseDigitsAux acc (ds.map digitChar10)
      = some (acc * 10 ^ ds.length + digitsVal 10 ds) := by
  induction ds with
  | nil => intro acc; simp [parseDigitsAux, digitsVal]
  | cons d rest ih =>
    intro acc
    have hd := h d (List.mem_cons_self d rest)
    rw [List.map_cons, parseDigitsAux, digitVal_digitChar10 d hd]
    show parseDigitsAux (acc * 10 + d) (List.map digitChar10 rest)
      = some (acc * 10 ^ (d :: rest).length + digitsVal 10 (d :: rest))
    rw [ih (fun x hx => h x (List.mem_cons_of_mem d hx)) (acc * 10 + d)]
    congr 1
    show (acc * 10 + d) * 10 ^ rest.length + digitsVal 10 rest
      = acc * 10 ^ (d :: rest).length + digitsVal 10 (d :: rest)
    rw [digitsVal, List.length_cons, pow_succ]
    ring

theorem parseInt64_natDecimal (n : Nat) (h : (n : Int) ≤ 2 ^ 63 - 1) :
    parseInt64 (natDecimal n) = some n := by
  by_cases h0 : n = 0
  · subst h0; decide
  · have hne : Nat.digits 10 n ≠ [] := Nat.digits_ne_nil_iff_ne_zero.mpr h0
    have hmaps : (natDecimal n).toList = (Nat.digits 10 n).reverse.map digitChar10 := by
      rw [natDecimal, if_neg h0]
      show ((Nat.digits 10 n).map digitChar10).reverse = _
      rw [List.map_reverse]
    have hrne : (Nat.digits 10 n).reverse ≠ [] := by simp [hne]
    obtain ⟨d0, ds', hds⟩ := List.exists_cons_of_ne_nil hrne
    have hall : ∀ d ∈ (Nat.digits 10 n).reverse, d < 10 := fun d hd =>
      Nat.digits_lt_base (by norm_num) (List.mem_reverse.mp hd)
    have hd0 : d0 < 10 := hall d0 (hds ▸ List.mem_cons_self d0 ds')
    have hsign : ¬((natDecimal n).toList.headD ' ' = '-'
        ∨ (natDecimal n).toList.headD ' ' = '+') := by
      rw [hmaps, hds, List.map_cons, List.headD_cons]
      have := digitChar10_ne_sign d0 hd0
      tauto
    have hcne : (natDecimal n).toList ≠ [] := by
      rw [hmaps, hds, List.map_cons]; exact List.cons_ne_nil _ _
    have hparse : parseDigitsAux 0 ((natDecimal n).toList) = some n := by
      rw [hmaps]
      rw [parseDigitsAux_map _ hall 0]
      rw [digitsVal_reverse_digits]
      simp
    simp only [parseInt64, if_neg hsign, if_neg hcne, hparse]
    have hns : ¬(natDecimal n).toList.headD ' ' = '-' := fun hc => hsign (Or.inl hc)
    simp only [if_neg hns]
    have hge : -(2 ^ 63 : Int) ≤ (n : Int) := le_trans (by norm_num) (Int.ofNat_nonneg n)
    rw [if_pos ⟨hge, h⟩]
    rfl

theorem intDecimal_of_nonneg (v : Int) (h : 0 ≤ v) : intDecimal v = natDecimal v.toNat := by
  rw [intDecimal, if_neg (not_lt.mpr h)]

/-! ### The paste store -/

/-- Association list lookup, modelling both the on-disk file table and the
throttle map. -/
def assocFind {α : Type} : List (String × α) → String → Option α
  | [], _ => none
  | (k, v) :: rest, key => if k = key then some v else assocFind rest key

/-- Overwrite the front of `old` with `new` without truncating what lies
beyond: the semantics of writing at offset 0 to an existing file opened
without `O_TRUNC`, which is how both the counter file and the paste files
are written. -/
def overwrite {α : Type} (new old : List α) : List α := new ++ old.drop new.length

/-- String version of `overwrite`. -/
def overwriteStr (new old : String) : String := ⟨overwrite new.toList old.toList⟩

/-- Durable state of the paste store: the counter file content (if the file
is present) and the paste files keyed by their path under the data
directory. -/
structure Store where
  counterFile : Option String
  pastes : List (String × List Nat)

/-- Model of `ReadCounter` (src/main.go lines 60-70) applied to the content
of the counter file: the content is trimmed and parsed as a decimal int64,
and a parse failure is swallowed, yielding 0 with no error. -/
def ReadCounter (content : String) : Int :=
  (parseInt64 (goTrimSpace content)).getD 0

/-- Model of `WriteCounter` (src/main.go lines 72-80): seek to offset 0 and
write the decimal text of `value`, without truncating what lies beyond. -/
def WriteCounter (content : String) (value : Int) : String :=
  overwriteStr (intDecimal value) content

/-- Counter value currently recorded by a store.  `CreatePaste` opens the
counter file with `O_CREATE`, so an absent file is read as the empty string,
which parses to 0. -/
def counterValue (s : Store) : Int :=
  ReadCounter (s.counterFile.getD "")

theorem ReadCounter_intDecimal (c : Int) (h0 : 0 ≤ c) (h1 : c ≤ 2 ^ 63 - 1) :
    ReadCounter (intDecimal c) = c := by
  rw [ReadCounter, intDecimal_of_nonneg c h0, goTrimSpace_natDecimal,
    parseInt64_natDecimal c.toNat (by rwa [Int.toNat_of_nonneg h0])]
  simp [Int.toNat_of_nonneg h0]

/-- Durable writes of a request, in program order. -/
inductive Event where
  | counterWrite (value : Int)
  | pasteWrite (name : String) (content : List Nat)
deriving DecidableEq

/-- Outcome of `CreatePaste` as rendered to the HTTP client: either the new
identifier (returned inside the URL line) or a status code with its message
body. -/
inductive CreateResult where
  | ok (id : String)
  | err (status : Nat) (msg : String)
deriving DecidableEq

/-- Outcome of `RetrievePaste`: the raw stored bytes, or a status code with
its message body. -/
inductive RetrieveResult where
  | ok (content : List Nat)
  | err (status : Nat) (msg : String)
deriving DecidableEq

/-- Path of the paste record for ordinal `v` and identifier `id`: Go
`fmt.Sprintf("pastes/%09d_%s", counter, counterHash)` (src/main.go
lines 197 and 238). -/
def pasteName (v : Int) (id : String) : String :=
  "pastes/" ++ pad9 v ++ "_" ++ id

/-- Write a paste file: create it if absent, otherwise overwrite from
offset 0 without truncating (`O_CREATE | O_WRONLY`). -/
def writeFile (fs : List (String × List Nat)) (k : String) (content : List Nat) :
    List (String × List Nat) :=
  match assocFind fs k with
  | none => (k, content) :: fs
  | some old => (k, overwrite content old) :: fs

/-- Model of `CreatePaste` (src/main.go lines 127-214), applied to the
payload the HTTP layer extracted from the request body.  An empty payload is
rejected with status 400 before the counter file is touched.  Otherwise the
counter file is opened (created empty if absent) and read — 0 when empty or
unparsable — the counter is incremented with int64 semantics and written
back in place, the new ordinal is encoded, and the payload is written to the
paste record.  An encode failure panics, which the deferred handler reports
as status 500; the counter was already advanced at that point.  The trace
lists the durable writes in program order. -/
def CreatePaste (salt : String) (s : Store) (payload : List Nat) :
    CreateResult × Store × List Event :=
  if payload = [] then
    (.err 400 "error: your paste is empty!\n", s, [])
  else
    let content0 := s.counterFile.getD ""
    let c := ReadCounter content0
    let next := wrap64 (c + 1)
    let content1 := WriteCounter content0 next
    match encodeId salt next with
    | none =>
      (.err 500 "encode failure", { s with counterFile := some content1 },
        [.counterWrite next])
    | some id =>
      (.ok id,
        { counterFile := some content1,
          pastes := writeFile s.pastes (pasteName next id) payload },
        [.counterWrite next, .pasteWrite (pasteName next id) payload])

/-- Paste-record path probed by `RetrievePaste` for a requested identifier:
the identifier is decoded, a decode failure falls back to ordinal 0
(src/main.go lines 233-236), and the path is rebuilt from the ordinal and
the identifier as requested. -/
def retrieveName (salt : String) (hash : String) : String :=
  pasteName ((decodeId salt hash).getD 0) hash

/-- Model of `RetrievePaste` (src/main.go lines 216-256): open the record at
the rebuilt path; absence of the file is reported as status 404 naming the
identifier, otherwise the stored bytes are returned verbatim. -/
def RetrievePaste (salt : String) (s : Store) (hash : String) : RetrieveResult :=
  match assocFind s.pastes (retrieveName salt hash) with
  | none => .err 404 ("paste with id \"" ++ hash ++ "\" was not found\n")
  | some content => .ok content

/-- Well-formed counter file: absent, empty, or holding exactly the decimal
text of a non-negative int64 — the shapes that arise in any run of the
program itself. -/
def CounterWF (s : Store) : Prop :=
  s.counterFile = none ∨ s.counterFile = some "" ∨
    ∃ c : Int, 0 ≤ c ∧ c ≤ 2 ^ 63 - 1 ∧ s.counterFile = some (intDecimal c)

/-! ### Counter arithmetic lemmas -/

theorem ReadCounter_empty : ReadCounter "" = 0 := by decide

theorem wrap64_eq (x : Int) (h0 : -(2 ^ 63) ≤ x) (h1 : x ≤ 2 ^ 63 - 1) : wrap64 x = x := by
  rw [wrap64, Int.emod_eq_of_lt (by linarith) (by linarith)]
  ring

theorem counterValue_nonneg_of_wf (s : Store) (h : CounterWF s) :
    0 ≤ counterValue s ∧ counterValue s ≤ 2 ^ 63 - 1 := by
  rcases h with h | h | ⟨c, hc0, hc1, h⟩ <;> rw [counterValue, h]
  · rw [Option.getD_none, ReadCounter_empty]; norm_num
  · rw [Option.getD_some, ReadCounter_empty]; norm_num
  · rw [Option.getD_some, ReadCounter_intDecimal c hc0 hc1]
    exact ⟨hc0, hc1⟩

theorem natDecimal_length (n : Nat) :
    (natDecimal n).length = if n = 0 then 1 else (Nat.digits 10 n).length := by
  by_cases h : n = 0
  · rw [natDecimal, if_pos h, if_pos h]; rfl
  · rw [natDecimal, if_neg h, if_neg h]
    show (((Nat.digits 10 n).map digitChar10).reverse).length = _
    rw [List.length_reverse, List.length_map]

theorem natDecimal_length_mono (m n : Nat) (h : m ≤ n) :
    (natDecimal m).length ≤ (natDecimal n).length := by
  rw [natDecimal_length, natDecimal_length]
  by_cases hm : m = 0
  · rw [if_pos hm]
    by_cases hn : n = 0
    · rw [if_pos hn]
    · rw [if_neg hn]
      have : Nat.digits 10 n ≠ [] := Nat.digits_ne_nil_iff_ne_zero.mpr hn
      exact List.length_pos.mpr this
  · have hn : n ≠ 0 := by omega
    rw [if_neg hm, if_neg hn]
    exact Nat.le_digits_len_le 10 m n h

theorem intDecimal_length_mono (c v : Int) (h0 : 0 ≤ c) (h : c ≤ v) :
    (intDecimal c).length ≤ (intDecimal v).length := by
  rw [intDecimal_of_nonneg c h0, intDecimal_of_nonneg v (le_trans h0 h)]
  exact natDecimal_length_mono _ _ (Int.toNat_le_toNat h)

theorem overwrite_of_le {α : Type} (new old : List α) (h : old.length ≤ new.length) :
    overwrite new old = new := by
  rw [overwrite, List.drop_eq_nil_of_le h, List.append_nil]

theorem WriteCounter_covers (content : String) (v : Int)
    (h : content.length ≤ (intDecimal v).length) :
    WriteCounter content v = intDecimal v := by
  rw [WriteCounter, overwriteStr]
  apply String.ext
  show overwrite (intDecimal v).toList content.toList = (intDecimal v).data
  exact overwrite_of_le _ _ h

theorem WriteCounter_of_wf (s : Store) (hwf : CounterWF s) :
    WriteCounter (s.counterFile.getD "") (counterValue s + 1)
      = intDecimal (counterValue s + 1) := by
  rcases hwf with h | h | ⟨c, hc0, hc1, h⟩
  · rw [h, Option.getD_none]
    apply WriteCounter_covers
    show (0 : Nat) ≤ _
    exact Nat.zero_le _
  · rw [h, Option.getD_some]
    apply WriteCounter_covers
    show (0 : Nat) ≤ _
    exact Nat.zero_le _
  · rw [h, Option.getD_some]
    have hcv : counterValue s = c := by
      rw [counterValue, h, Option.getD_some, ReadCounter_intDecimal c hc0 hc1]
    apply WriteCounter_covers
    rw [hcv]
    exact intDecimal_length_mono c (c + 1) hc0 (by linarith)

/-- Full description of a successful allocation from a well-formed store:
the result, the new store and the trace of durable writes. -/
theorem CreatePaste_eq (salt : String) (s : Store) (payload : List Nat)
    (hp : payload ≠ []) (hwf : CounterWF s) (hlt : counterValue s < 2 ^ 63 - 1) :
    CreatePaste salt s payload =
      (.ok (encodeNum salt (counterValue s + 1).toNat),
       { counterFile := some (intDecimal (counterValue s + 1)),
         pastes := writeFile s.pastes
           (pasteName (counterValue s + 1)
             (encodeNum salt (counterValue s + 1).toNat)) payload },
       [.counterWrite (counterValue s + 1),
        .pasteWrite (pasteName (counterValue s + 1)
          (encodeNum salt (counterValue s + 1).toNat)) payload]) := by
  obtain ⟨h0, h1⟩ := counterValue_nonneg_of_wf s hwf
  have hcv : ReadCounter (s.counterFile.getD "") = counterValue s := rfl
  have hwrap : wrap64 (counterValue s + 1) = counterValue s + 1 :=
    wrap64_eq _ (by linarith) (by linarith)
  have henc : encodeId salt (counterValue s + 1)
      = some (encodeNum salt (counterValue s + 1).toNat) := by
    rw [encodeId, if_neg (not_lt.mpr (by linarith))]
  simp only [CreatePaste, if_neg hp, hcv, hwrap, henc, WriteCounter_of_wf s hwf]

/-- Claim C3: each allocation reads the current counter (0 when no counter
record exists), increments it by exactly 1, and persists the new value
before the paste content is written (the counter write strictly precedes the
paste write in the trace); the store afterwards reads back the incremented
value, so ordinals are strictly increasing and never reused, and the first
paste ever allocated receives ordinal 1. -/
theorem allocation_spec (salt : String) (s : Store) (payload : List Nat)
    (hp : payload ≠ []) (hwf : CounterWF s) (hlt : counterValue s < 2 ^ 63 - 1) :
    (CreatePaste salt s payload).1
        = .ok (encodeNum salt (counterValue s + 1).toNat) ∧
    (CreatePaste salt s payload).2.2
        = [.counterWrite (counterValue s + 1),
           .pasteWrite (pasteName (counterValue s + 1)
             (encodeNum salt (counterValue s + 1).toNat)) payload] ∧
    counterValue (CreatePaste salt s payload).2.1 = counterValue s + 1 ∧
    (s.counterFile = none → counterValue s + 1 = 1) := by
  obtain ⟨h0, h1⟩ := counterValue_nonneg_of_wf s hwf
  rw [CreatePaste_eq salt s payload hp hwf hlt]
  refine ⟨rfl, rfl, ?_, ?_⟩
  · show ReadCounter ((some (intDecimal (counterValue s + 1))).getD "") = _
    rw [Option.getD_some]
    exact ReadCounter_intDecimal _ (by linarith) (by linarith)
  · intro h
    rw [counterValue, h, Option.getD_none, ReadCounter_empty]
    norm_num

/-- Witness for claim C3: allocating from a fresh store (no counter record)
writes counter value 1 before the paste record and yields ordinal 1. -/
theorem allocation_spec_witness :
    (CreatePaste "" ⟨none, []⟩ [42]).2.2
      = [.counterWrite (counterValue (⟨none, []⟩ : Store) + 1),
         .pasteWrite (pasteName (counterValue (⟨none, []⟩ : Store) + 1)
           (encodeNum "" (counterValue (⟨none, []⟩ : Store) + 1).toNat)) [42]] ∧
    counterValue (⟨none, []⟩ : Store) + 1 = 1 :=
  ⟨(allocation_spec "" ⟨none, []⟩ [42] (by decide) (Or.inl rfl) (by decide)).2.1,
   (allocation_spec "" ⟨none, []⟩ [42] (by decide) (Or.inl rfl) (by decide)).2.2.2 rfl⟩

/-- Claim C4: an empty payload is rejected with status 400 and the
empty-paste message before any counter access: the store is returned
unchanged and the trace of durable writes is empty, so the counter is
neither read nor incremented and no ordinal is allocated. -/
theorem empty_payload_rejected (salt : String) (s : Store) :
    CreatePaste salt s [] = (.err 400 "error: your paste is empty!\n", s, []) := by
  rw [CreatePaste, if_pos rfl]

/-- Claim C10: a counter file whose content does not parse as a decimal
int64 reads as 0 with no error, so the next allocation silently restarts the
ordinal sequence: it succeeds (no internal failure is reported) and assigns
ordinal 1. -/
theorem garbage_counter_restarts (salt : String) (ps : List (String × List Nat))
    (garbage : String) (payload : List Nat) (hp : payload ≠ [])
    (hg : parseInt64 (goTrimSpace garbage) = none) :
    counterValue ⟨some garbage, ps⟩ = 0 ∧
    (CreatePaste salt ⟨some garbage, ps⟩ payload).1 = .ok (encodeNum salt 1) ∧
    (CreatePaste salt ⟨some garbage, ps⟩ payload).2.2
      = [.counterWrite 1,
         .pasteWrite (pasteName 1 (encodeNum salt 1)) payload] := by
  have hcv : counterValue ⟨some garbage, ps⟩ = 0 := by
    rw [counterValue, Option.getD_some, ReadCounter, hg, Option.getD_none]
  have hwrap : wrap64 (0 + 1) = 1 := by
    rw [wrap64_eq (0 + 1) (by norm_num) (by norm_num)]
    norm_num
  have henc : encodeId salt (1 : Int) = some (encodeNum salt 1) := by
    rw [encodeId, if_neg (by norm_num)]
    rfl
  refine ⟨hcv, ?_, ?_⟩ <;>
  · have hcv0 : ReadCounter ((Store.mk (some garbage) ps).counterFile.getD "") = 0 := hcv
    simp only [CreatePaste, if_neg hp, hcv0, hwrap, henc]
    try norm_num

/-- Witness for claim C10 with the unparsable counter content "hello". -/
theorem garbage_counter_restarts_witness :
    counterValue ⟨some "hello", []⟩ = 0 ∧
    (CreatePaste "" ⟨some "hello", []⟩ [7]).1 = .ok (encodeNum "" 1) ∧
    (CreatePaste "" ⟨some "hello", []⟩ [7]).2.2
      = [.counterWrite 1, .pasteWrite (pasteName 1 (encodeNum "" 1)) [7]] :=
  garbage_counter_restarts "" [] "hello" [7] (by decide) (by decide)

/-- Claim C1: storage round trip.  Allocating any non-empty payload from a
well-formed store (no bound on the payload, so 1 MiB payloads and payloads
containing null bytes are covered) succeeds with an identifier, and
resolving that identifier against the resulting store returns exactly the
original bytes, untransformed and untruncated. -/
theorem storage_roundtrip (salt : String) (s : Store) (payload : List Nat)
    (hp : payload ≠ []) (hwf : CounterWF s) (hlt : counterValue s < 2 ^ 63 - 1)
    (hfresh : assocFind s.pastes (pasteName (counterValue s + 1)
      (encodeNum salt (counterValue s + 1).toNat)) = none) :
    (CreatePaste salt s payload).1
        = .ok (encodeNum salt (counterValue s + 1).toNat) ∧
    RetrievePaste salt (CreatePaste salt s payload).2.1
        (encodeNum salt (counterValue s + 1).toNat) = .ok payload := by
  obtain ⟨h0, h1⟩ := counterValue_nonneg_of_wf s hwf
  rw [CreatePaste_eq salt s payload hp hwf hlt]
  refine ⟨rfl, ?_⟩
  have hdec : decodeId salt (encodeNum salt (counterValue s + 1).toNat)
      = some (counterValue s + 1) := by
    rw [decodeId, decodeNum_encodeNum]
    show some (Int.ofNat (counterValue s + 1).toNat) = _
    refine congrArg some ?_
    show ((counterValue s + 1).toNat : Int) = counterValue s + 1
    exact Int.toNat_of_nonneg (by linarith)
  have hname : retrieveName salt (encodeNum salt (counterValue s + 1).toNat)
      = pasteName (counterValue s + 1) (encodeNum salt (counterValue s + 1).toNat) := by
    rw [retrieveName, hdec, Option.getD_some]
  rw [RetrievePaste, hname]
  show (match assocFind (writeFile s.pastes
      (pasteName (counterValue s + 1) (encodeNum salt (counterValue s + 1).toNat)) payload)
      (pasteName (counterValue s + 1) (encodeNum salt (counterValue s + 1).toNat)) with
    | none => RetrieveResult.err 404 _
    | some content => RetrieveResult.ok content) = RetrieveResult.ok payload
  rw [writeFile, hfresh]
  show (match assocFind ((pasteName (counterValue s + 1)
      (encodeNum salt (counterValue s + 1).toNat), payload) :: s.pastes)
      (pasteName (counterValue s + 1) (encodeNum salt (counterValue s + 1).toNat)) with
    | none => RetrieveResult.err 404 _
    | some content => RetrieveResult.ok content) = RetrieveResult.ok payload
  rw [assocFind, if_pos rfl]

/-- Witness for claim C1: a two-byte payload containing a null byte survives
the round trip from a fresh store. -/
theorem storage_roundtrip_witness :
    RetrievePaste "" (CreatePaste "" ⟨none, []⟩ [0, 255]).2.1
        (encodeNum "" (counterValue (⟨none, []⟩ : Store) + 1).toNat) = .ok [0, 255] :=
  (storage_roundtrip "" ⟨none, []⟩ [0, 255] (by decide) (Or.inl rfl) (by decide) rfl).2

theorem natDecimal_length_le_nine (m : Nat) (h : m < 10 ^ 9) : (natDecimal m).length ≤ 9 := by
  rw [natDecimal_length]
  by_cases h0 : m = 0
  · rw [if_pos h0]; norm_num
  · rw [if_neg h0]
    have h1 : 10 ^ (Nat.digits 10 m).length ≤ 10 * m :=
      Nat.base_pow_length_digits_le 10 m (by norm_num) h0
    have h2 : 10 ^ (Nat.digits 10 m).length < 10 ^ 10 := by
      calc 10 ^ (Nat.digits 10 m).length ≤ 10 * m := h1
        _ < 10 * 10 ^ 9 := by omega
        _ = 10 ^ 10 := by norm_num
    have h3 := (Nat.pow_lt_pow_iff_right (by norm_num : (1 : Nat) < 10)).mp h2
    omega

theorem pad9_length (v : Int) (h0 : 0 ≤ v) (h9 : v < 10 ^ 9) : (pad9 v).length = 9 := by
  rw [pad9, if_neg (not_lt.mpr h0)]
  have hlt : v.toNat < 10 ^ 9 := by omega
  have hle : (natDecimal v.toNat).length ≤ 9 := natDecimal_length_le_nine _ hlt
  rw [padZeros, String.length_append]
  show (List.replicate (9 - (natDecimal v.toNat).length) '0').length + _ = 9
  rw [List.length_replicate]
  omega

theorem intDecimal_chars_digits (v : Int) (h0 : 0 ≤ v) :
    ∀ ch ∈ (intDecimal v).toList, 48 ≤ ch.toNat ∧ ch.toNat ≤ 57 := by
  rw [intDecimal_of_nonneg v h0]
  intro ch hch
  obtain ⟨d, hd, rfl⟩ := natDecimal_chars _ ch hch
  exact digitChar10_isDigit d hd

/-- Claim C8: persisted layout.  After a successful allocation the counter
record holds exactly the decimal ASCII text of the current ordinal (every
character an ASCII digit, nothing else in the file), and the new paste
record lives under the pastes subdirectory with a name made of the
zero-padded 9-digit ordinal, an underscore and the identifier, holding the
raw payload bytes unmodified. -/
theorem persisted_layout (salt : String) (s : Store) (payload : List Nat)
    (hp : payload ≠ []) (hwf : CounterWF s) (hlt : counterValue s < 2 ^ 63 - 1)
    (h9 : counterValue s + 1 < 10 ^ 9)
    (hfresh : assocFind s.pastes (pasteName (counterValue s + 1)
      (encodeNum salt (counterValue s + 1).toNat)) = none) :
    (CreatePaste salt s payload).2.1.counterFile
        = some (intDecimal (counterValue s + 1)) ∧
    (∀ ch ∈ (intDecimal (counterValue s + 1)).toList,
        48 ≤ ch.toNat ∧ ch.toNat ≤ 57) ∧
    (CreatePaste salt s payload).2.1.pastes
        = ("pastes/" ++ pad9 (counterValue s + 1) ++ "_"
            ++ encodeNum salt (counterValue s + 1).toNat, payload) :: s.pastes ∧
    (pad9 (counterValue s + 1)).length = 9 := by
  obtain ⟨h0, h1⟩ := counterValue_nonneg_of_wf s hwf
  rw [CreatePaste_eq salt s payload hp hwf hlt]
  refine ⟨rfl, intDecimal_chars_digits _ (by linarith), ?_,
    pad9_length _ (by linarith) h9⟩
  show writeFile s.pastes (pasteName (counterValue s + 1)
      (encodeNum salt (counterValue s + 1).toNat)) payload = _
  rw [writeFile, hfresh]
  rfl

/-- Witness for claim C8 from a fresh store. -/
theorem persisted_layout_witness :
    (CreatePaste "" ⟨none, []⟩ [9]).2.1.counterFile
      = some (intDecimal (counterValue (⟨none, []⟩ : Store) + 1)) ∧
    (pad9 (counterValue (⟨none, []⟩ : Store) + 1)).length = 9 :=
  ⟨(persisted_layout "" ⟨none, []⟩ [9] (by decide) (Or.inl rfl) (by decide)
      (by decide) rfl).1,
   (persisted_layout "" ⟨none, []⟩ [9] (by decide) (Or.inl rfl) (by decide)
      (by decide) rfl).2.2.2⟩

/-- Claim C5: a resolve whose rebuilt record path is absent from the store —
in particular an identifier that was never issued — is answered with
status 404 naming the identifier, never an internal error; and when the
codec fails to decode the identifier the lookup proceeds uniformly with
ordinal 0 as the key. -/
theorem resolve_not_found (salt : String) (s : Store) (hash : String) :
    (decodeId salt hash = none → retrieveName salt hash = pasteName 0 hash) ∧
    (assocFind s.pastes (retrieveName salt hash) = none →
      RetrievePaste salt s hash
        = .err 404 ("paste with id \"" ++ hash ++ "\" was not found\n")) := by
  constructor
  · intro h
    rw [retrieveName, h, Option.getD_none]
  · intro h
    rw [RetrievePaste, h]

/-- Witness for claim C5: the identifier "ab" decodes to no ordinal (it is
shorter than the codec's minimum length) and resolves to 404 on an empty
store. -/
theorem resolve_not_found_witness :
    retrieveName "" "ab" = pasteName 0 "ab" ∧
    RetrievePaste "" ⟨none, []⟩ "ab"
      = .err 404 "paste with id \"ab\" was not found\n" :=
  ⟨(resolve_not_found "" ⟨none, []⟩ "ab").1 (by decide),
   (resolve_not_found "" ⟨none, []⟩ "ab").2 rfl⟩

/-! ### The submission throttle -/

/-- Split a character list at every occurrence of `sep`: the semantics of Go
`strings.Split` with a single-character separator, as applied to
`r.RemoteAddr` (src/main.go line 260). -/
def splitOnChar (sep : Char) : List Char → List (List Char)
  | [] => [[]]
  | c :: cs =>
    if c = sep then [] :: splitOnChar sep cs
    else
      match splitOnChar sep cs with
      | [] => [[c]]
      | p :: ps => (c :: p) :: ps

/-- The cooldown window in nanoseconds: `PasteCooldown = 5 * time.Second`
(src/main.go line 25). -/
def PasteCooldown : Int := 5 * 1000000000

/-- Integer model of `int64(math.Ceil(time.Until(nextTry).Seconds()))`
(src/main.go line 264): nanoseconds rounded up to whole seconds.  The
float64 arithmetic of the original is exact for every duration below
2 ^ 53 ns, which covers the whole cooldown range. -/
def ceilSeconds (ns : Int) : Int := (ns + (1000000000 - 1)) / 1000000000

/-- Throttle key the code derives from a remote address: the part before
the first colon (`strings.Split(r.RemoteAddr, ":")[0]`). -/
def rlKey (remoteAddr : String) : String :=
  ⟨(splitOnChar ':' remoteAddr.toList).headD []⟩

/-- Last-accepted time the throttle table records for an address, the Go
zero time (modelled as 0) when the address was never accepted. -/
def lastAccepted (table : List (String × Int)) (remoteAddr : String) : Int :=
  (assocFind table (rlKey remoteAddr)).getD 0

/-- Outcome of the `RateLimit` wrapper, decided before the wrapped handler
runs. -/
inductive RateResult where
  | allowed
  | denied (retryAfter : Int)
deriving DecidableEq

/-- Model of `RateLimit` (src/main.go lines 258-278).  The remote address is
split on ":"; when it has at least two parts, the part before the first
colon indexes the throttle table (a missing entry reads as the zero time),
and the request is denied with the positive rounded-up retry-after while
the cooldown since the last accepted submission has not elapsed; otherwise
the current time is recorded for the key and the request proceeds.  An
address without a colon bypasses the throttle entirely.  `now` stands for
both clock reads of the handler. -/
def RateLimit (table : List (String × Int)) (remoteAddr : String) (now : Int) :
    RateResult × List (String × Int) :=
  let addrParts := splitOnChar ':' remoteAddr.toList
  if 1 < addrParts.length then
    let key : String := ⟨addrParts.headD []⟩
    let lastTime := (assocFind table key).getD 0
    let nextTry := lastTime + PasteCooldown
    let retryAfter := ceilSeconds (nextTry - now)
    if 0 < retryAfter then (.denied retryAfter, table)
    else (.allowed, (key, now) :: table)
  else (.allowed, table)

theorem ceilSeconds_pos_iff (ns : Int) : 0 < ceilSeconds ns ↔ 0 < ns := by
  rw [ceilSeconds]
  omega

theorem ceilSeconds_spec (ns : Int) :
    (ceilSeconds ns - 1) * 1000000000 < ns ∧ ns ≤ ceilSeconds ns * 1000000000 := by
  rw [ceilSeconds]
  omega

/-- Claim C6: throttle semantics.  For an address the throttle applies to
(it contains a colon) and any realistic clock (at least one cooldown after
the zero time, which holds for every wall clock), a submission is allowed
exactly when the current time is at or after the client's last-accepted
time plus the 5-second cooldown, or the client has no prior record; on the
allow path, and only there, the entry is updated to `now`; on denial the
table is unchanged and the reported retry-after is the remaining wait
rounded up to whole seconds (the least integer number of seconds covering
the remaining wait). -/
theorem rateLimit_spec (table : List (String × Int)) (addr : String) (now : Int)
    (hc : 1 < (splitOnChar ':' addr.toList).length)
    (hn : PasteCooldown ≤ now) :
    ((RateLimit table addr now).1 = .allowed ↔
      (assocFind table (rlKey addr) = none ∨
        lastAccepted table addr + PasteCooldown ≤ now)) ∧
    ((RateLimit table addr now).1 = .allowed →
      (RateLimit table addr now).2 = (rlKey addr, now) :: table) ∧
    (∀ ra, (RateLimit table addr now).1 = .denied ra →
      (RateLimit table addr now).2 = table ∧
      ra = ceilSeconds (lastAccepted table addr + PasteCooldown - now) ∧
      (ra - 1) * 1000000000 < lastAccepted table addr + PasteCooldown - now ∧
      lastAccepted table addr + PasteCooldown - now ≤ ra * 1000000000) := by
  have hunf : RateLimit table addr now =
      if 0 < ceilSeconds (lastAccepted table addr + PasteCooldown - now) then
        (.denied (ceilSeconds (lastAccepted table addr + PasteCooldown - now)), table)
      else (.allowed, (rlKey addr, now) :: table) := by
    simp only [RateLimit, if_pos hc]
    rfl
  by_cases hd : 0 < ceilSeconds (lastAccepted table addr + PasteCooldown - now)
  · rw [hunf, if_pos hd]
    have hpos : 0 < lastAccepted table addr + PasteCooldown - now :=
      (ceilSeconds_pos_iff _).mp hd
    refine ⟨?_, ?_, ?_⟩
    · show RateResult.denied _ = RateResult.allowed ↔ _
      constructor
      · intro h; exact absurd h (by simp)
      · intro h
        exfalso
        rcases h with h | h
        · have h0 : lastAccepted table addr = 0 := by
            rw [lastAccepted, h, Option.getD_none]
          omega
        · omega
    · intro h
      exact absurd h (by simp)
    · intro ra h
      have hra : ra = ceilSeconds (lastAccepted table addr + PasteCooldown - now) := by
        have h2 : RateResult.denied
            (ceilSeconds (lastAccepted table addr + PasteCooldown - now))
            = RateResult.denied ra := h
        injection h2 with h3
        exact h3.symm
      refine ⟨rfl, hra, ?_, ?_⟩
      · rw [hra]; exact (ceilSeconds_spec _).1
      · rw [hra]; exact (ceilSeconds_spec _).2
  · rw [hunf, if_neg hd]
    have hle : lastAccepted table addr + PasteCooldown ≤ now := by
      have h2 : ¬0 < lastAccepted table addr + PasteCooldown - now :=
        fun hp => hd ((ceilSeconds_pos_iff _).mpr hp)
      omega
    refine ⟨?_, ?_, ?_⟩
    · exact ⟨fun _ => Or.inr hle, fun _ => rfl⟩
    · intro _
      rfl
    · intro ra h
      exact absurd h (by simp)

/-- Witness for claim C6: a fresh client is allowed at the earliest
realistic clock value. -/
theorem rateLimit_spec_witness :
    (RateLimit [] "1.2.3.4:5" PasteCooldown).1 = .allowed :=
  ((rateLimit_spec [] "1.2.3.4:5" PasteCooldown (by decide) (by decide)).1).mpr
    (Or.inl rfl)

theorem splitOnChar_ne_nil (sep : Char) (l : List Char) : splitOnChar sep l ≠ [] := by
  cases l with
  | nil => simp [splitOnChar]
  | cons c cs =>
    rw [splitOnChar]
    by_cases h : c = sep
    · rw [if_pos h]; exact List.cons_ne_nil _ _
    · rw [if_neg h]
      cases hsp : splitOnChar sep cs with
      | nil => exact List.cons_ne_nil _ _
      | cons p ps => exact List.cons_ne_nil _ _

theorem splitOnChar_append (sep : Char) (pre rest : List Char)
    (h : ∀ c ∈ pre, c ≠ sep) :
    splitOnChar sep (pre ++ sep :: rest) = pre :: splitOnChar sep rest := by
  induction pre with
  | nil =>
    rw [List.nil_append, splitOnChar, if_pos rfl]
  | cons a as ih =>
    have ha : a ≠ sep := h a (List.mem_cons_self a as)
    rw [List.cons_append, splitOnChar, if_neg ha,
      ih (fun c hc => h c (List.mem_cons_of_mem a hc))]

theorem string_data_append (a b : String) : (a ++ b).data = a.data ++ b.data := rfl

/-- Counterexample to claim C7 as stated: for the remote address
"[2001:db8::1]:443" (IPv6 host with a port, the form Go produces for such
connections, also reachable through a forwarded-address header) the code
keys its throttle entry by the text before the FIRST colon, "[2001" — not
by the host portion of the address with the port stripped, which is
"2001:db8::1" (or "[2001:db8::1]" bracketed). -/
theorem rateLimitKey_not_host :
    rlKey "[2001:db8::1]:443" = "[2001" ∧
    (RateLimit [] "[2001:db8::1]:443" PasteCooldown).2
      = [("[2001", PasteCooldown)] ∧
    ("[2001" : String) ≠ "2001:db8::1" ∧ ("[2001" : String) ≠ "[2001:db8::1]" := by
  refine ⟨by decide, by decide, by decide, by decide⟩

/-- Claim C7 amended: whenever the host itself contains no colon (every
IPv4 `host:port` address), the throttle key of `host ++ ":" ++ port` is
exactly `host`, so two requests with the same host and different ports
share one throttle entry; such an address always has at least two parts, so
the throttle applies to it.  (For hosts containing colons the key is the
text before the first colon, and an address without any colon bypasses the
throttle.) -/
theorem rateLimitKey_host_port (host p1 p2 : String)
    (h : ∀ c ∈ host.toList, c ≠ ':') :
    rlKey (host ++ ":" ++ p1) = host ∧
    rlKey (host ++ ":" ++ p2) = rlKey (host ++ ":" ++ p1) ∧
    1 < (splitOnChar ':' (host ++ ":" ++ p1).toList).length := by
  have hsplit : ∀ p : String, splitOnChar ':' (host ++ ":" ++ p).toList
      = host.toList :: splitOnChar ':' p.toList := by
    intro p
    have hdata : (host ++ ":" ++ p).toList = host.toList ++ ':' :: p.toList := by
      show (host ++ ":" ++ p).data = host.data ++ ':' :: p.data
      rw [string_data_append, string_data_append, List.append_assoc]
      rfl
    rw [hdata]
    exact splitOnChar_append ':' host.toList p.toList h
  have hkey : ∀ p : String, rlKey (host ++ ":" ++ p) = host := by
    intro p
    rw [rlKey, hsplit p]
    show (⟨host.data⟩ : String) = host
    rfl
  refine ⟨hkey p1, by rw [hkey p1, hkey p2], ?_⟩
  rw [hsplit p1]
  have := splitOnChar_ne_nil ':' p1.toList
  have hlen : 0 < (splitOnChar ':' p1.toList).length := List.length_pos.mpr this
  simp only [List.length_cons]
  omega

/-- Witness for the amended claim C7 at an IPv4 address with two ports. -/
theorem rateLimitKey_host_port_witness :
    rlKey "1.2.3.4:80" = "1.2.3.4" ∧
    rlKey "1.2.3.4:81" = rlKey "1.2.3.4:80" ∧
    1 < (splitOnChar ':' "1.2.3.4:80".toList).length :=
  rateLimitKey_host_port "1.2.3.4" "80" "81" (by decide)

/-! ### Concurrency: the allocation critical section -/

/-- Program counter of one allocation request inside `CreatePaste`: before
the lock; holding the lock; after reading the counter; after incrementing
and persisting the counter; done (content written, lock released). -/
inductive AllocPhase where
  | start
  | locked
  | readDone
  | wroteCounter
  | done
deriving DecidableEq

/-- Pointwise update of a two-thread assignment. -/
def upd {α : Type} (f : Bool → α) (t : Bool) (v : α) : Bool → α :=
  fun u => if u = t then v else f u

/-- Shared state of two concurrent `CreatePaste` requests: the owner of
`hr.lock` (src/main.go lines 82-85 and 141-142), the durable counter, each
thread's local copy of the counter it read, each thread's program counter,
and the ordinal each thread received. -/
structure ConcState where
  lockOwner : Option Bool
  counter : Int
  tmp : Bool → Int
  pc : Bool → AllocPhase
  ord : Bool → Option Int

/-- Interleaving semantics of two racing allocations.  Each step is one
atomic phase of `CreatePaste` executed by thread `t`: acquire the mutex,
read the counter, increment and persist it (the persisted value is the
thread's ordinal), then write the content and release the mutex.  Every
phase after acquisition requires the lock to still be held by `t`,
mirroring src/main.go lines 141-205, where the mutex is held across the
whole read-increment-write-store sequence. -/
inductive AllocStep : ConcState → ConcState → Prop where
  | acquire (s : ConcState) (t : Bool) :
      s.lockOwner = none → s.pc t = .start →
      AllocStep s { s with lockOwner := some t, pc := upd s.pc t .locked }
  | readCounter (s : ConcState) (t : Bool) :
      s.lockOwner = some t → s.pc t = .locked →
      AllocStep s { s with tmp := upd s.tmp t s.counter, pc := upd s.pc t .readDone }
  | writeCounter (s : ConcState) (t : Bool) :
      s.lockOwner = some t → s.pc t = .readDone →
      AllocStep s { s with counter := s.tmp t + 1,
                           ord := upd s.ord t (some (s.tmp t + 1)),
                           pc := upd s.pc t .wroteCounter }
  | writeContentRelease (s : ConcState) (t : Bool) :
      s.lockOwner = some t → s.pc t = .wroteCounter →
      AllocStep s { s with lockOwner := none, pc := upd s.pc t .done }

/-- Initial state: lock free, both requests at the start, no ordinals. -/
def initState (c0 : Int) : ConcState :=
  { lockOwner := none, counter := c0, tmp := fun _ => 0,
    pc := fun _ => .start, ord := fun _ => none }

/-- A thread is inside the allocation critical section. -/
def inCS (p : AllocPhase) : Prop := p ≠ .start ∧ p ≠ .done

theorem upd_same {α : Type} (f : Bool → α) (t : Bool) (v : α) : upd f t v t = v := by
  simp [upd]

theorem upd_other {α : Type} (f : Bool → α) (t : Bool) (v : α) (u : Bool) (h : u ≠ t) :
    upd f t v u = f u := by
  simp [upd, h]

/-- Inductive invariant of the two-thread allocation system. -/
def ConcInv (s : ConcState) : Prop :=
  (∀ t : Bool, s.pc t ≠ .start → s.pc t ≠ .done → s.lockOwner = some t) ∧
  (∀ t : Bool, s.pc t = .readDone → s.tmp t = s.counter) ∧
  (∀ t : Bool, s.pc t = .wroteCounter ∨ s.pc t = .done →
    ∃ v, s.ord t = some v ∧ v ≤ s.counter) ∧
  (∀ t u : Bool, t ≠ u → (s.pc t = .wroteCounter ∨ s.pc t = .done) →
    (s.pc u = .wroteCounter ∨ s.pc u = .done) → s.ord t ≠ s.ord u)

theorem ConcInv_init (c0 : Int) : ConcInv (initState c0) := by
  refine ⟨?_, ?_, ?_, ?_⟩
  · intro t h1 _
    exact absurd rfl h1
  · intro t h
    exact absurd h (by simp [initState])
  · intro t h
    rcases h with h | h <;> exact absurd h (by simp [initState])
  · intro t u _ h _
    rcases h with h | h <;> exact absurd h (by simp [initState])

theorem ConcInv_step (s s2 : ConcState) (hs : ConcInv s) (hstep : AllocStep s s2) :
    ConcInv s2 := by
  obtain ⟨i1, i2, i3, i4⟩ := hs
  cases hstep with
  | acquire t hlock hpc =>
    refine ⟨?_, ?_, ?_, ?_⟩
    · intro u h1 h2
      dsimp only at h1 h2 ⊢
      by_cases hut : u = t
      · subst hut; rfl
      · rw [upd_other s.pc t _ u hut] at h1 h2
        have h3 := i1 u h1 h2
        rw [hlock] at h3
        cases h3
    · intro u hu
      dsimp only at hu ⊢
      by_cases hut : u = t
      · subst hut; rw [upd_same] at hu; simp at hu
      · rw [upd_other s.pc t _ u hut] at hu
        exact i2 u hu
    · intro u hu
      dsimp only at hu ⊢
      by_cases hut : u = t
      · subst hut; rw [upd_same] at hu; rcases hu with hu | hu <;> simp at hu
      · rw [upd_other s.pc t _ u hut] at hu
        exact i3 u hu
    · intro u w hne hu hw
      dsimp only at hu hw ⊢
      by_cases hut : u = t
      · subst hut; rw [upd_same] at hu; rcases hu with hu | hu <;> simp at hu
      · by_cases hwt : w = t
        · subst hwt; rw [upd_same] at hw; rcases hw with hw | hw <;> simp at hw
        · rw [upd_other s.pc t _ u hut] at hu
          rw [upd_other s.pc t _ w hwt] at hw
          exact i4 u w hne hu hw
  | readCounter t hlock hpc =>
    refine ⟨?_, ?_, ?_, ?_⟩
    · intro u h1 h2
      dsimp only at h1 h2 ⊢
      by_cases hut : u = t
      · subst hut; exact hlock
      · rw [upd_other s.pc t _ u hut] at h1 h2
        exact i1 u h1 h2
    · intro u hu
      dsimp only at hu ⊢
      by_cases hut : u = t
      · subst hut; rw [upd_same]
      · rw [upd_other s.pc t _ u hut] at hu
        rw [upd_other s.tmp t _ u hut]
        exact i2 u hu
    · intro u hu
      dsimp only at hu ⊢
      by_cases hut : u = t
      · subst hut; rw [upd_same] at hu; rcases hu with hu | hu <;> simp at hu
      · rw [upd_other s.pc t _ u hut] at hu
        exact i3 u hu
    · intro u w hne hu hw
      dsimp only at hu hw ⊢
      by_cases hut : u = t
      · subst hut; rw [upd_same] at hu; rcases hu with hu | hu <;> simp at hu
      · by_cases hwt : w = t
        · subst hwt; rw [upd_same] at hw; rcases hw with hw | hw <;> simp at hw
        · rw [upd_other s.pc t _ u hut] at hu
          rw [upd_other s.pc t _ w hwt] at hw
          exact i4 u w hne hu hw
  | writeCounter t hlock hpc =>
    have htmp : s.tmp t = s.counter := i2 t hpc
    refine ⟨?_, ?_, ?_, ?_⟩
    · intro u h1 h2
      dsimp only at h1 h2 ⊢
      by_cases hut : u = t
      · subst hut; exact hlock
      · rw [upd_other s.pc t _ u hut] at h1 h2
        exact i1 u h1 h2
    · intro u hu
      dsimp only at hu ⊢
      by_cases hut : u = t
      · subst hut; rw [upd_same] at hu; simp at hu
      · rw [upd_other s.pc t _ u hut] at hu
        have h3 := i1 u (by rw [hu]; simp) (by rw [hu]; simp)
        rw [hlock] at h3
        injection h3 with h4
        exact absurd h4.symm hut
    · intro u hu
      dsimp only at hu ⊢
      by_cases hut : u = t
      · subst hut
        rw [upd_same]
        exact ⟨s.tmp u + 1, rfl, le_refl _⟩
      · rw [upd_other s.pc t _ u hut] at hu
        obtain ⟨v, hv, hvle⟩ := i3 u hu
        rw [upd_other s.ord t _ u hut, hv]
        exact ⟨v, rfl, by omega⟩
    · intro u w hne hu hw
      dsimp only at hu hw ⊢
      by_cases hut : u = t
      · subst hut
        have hwt : w ≠ u := fun h => hne h.symm
        rw [upd_other s.pc u _ w hwt] at hw
        obtain ⟨v, hv, hvle⟩ := i3 w hw
        rw [upd_same, upd_other s.ord u _ w hwt, hv]
        intro heq
        injection heq with h5
        omega
      · by_cases hwt : w = t
        · subst hwt
          rw [upd_other s.pc w _ u hut] at hu
          obtain ⟨v, hv, hvle⟩ := i3 u hu
          rw [upd_same, upd_other s.ord w _ u hut, hv]
          intro heq
          injection heq with h5
          omega
        · rw [upd_other s.pc t _ u hut] at hu
          rw [upd_other s.pc t _ w hwt] at hw
          rw [upd_other s.ord t _ u hut, upd_other s.ord t _ w hwt]
          exact i4 u w hne hu hw
  | writeContentRelease t hlock hpc =>
    refine ⟨?_, ?_, ?_, ?_⟩
    · intro u h1 h2
      dsimp only at h1 h2 ⊢
      by_cases hut : u = t
      · subst hut; rw [upd_same] at h2; exact absurd rfl h2
      · rw [upd_other s.pc t _ u hut] at h1 h2
        have h3 := i1 u h1 h2
        rw [hlock] at h3
        injection h3 with h4
        exact absurd h4.symm hut
    · intro u hu
      dsimp only at hu ⊢
      by_cases hut : u = t
      · subst hut; rw [upd_same] at hu; simp at hu
      · rw [upd_other s.pc t _ u hut] at hu
        exact i2 u hu
    · intro u hu
      dsimp only at hu ⊢
      by_cases hut : u = t
      · subst hut
        exact i3 u (Or.inl hpc)
      · rw [upd_other s.pc t _ u hut] at hu
        exact i3 u hu
    · intro u w hne hu hw
      dsimp only at hu hw ⊢
      have hu2 : s.pc u = .wroteCounter ∨ s.pc u = .done := by
        by_cases hut : u = t
        · subst hut; exact Or.inl hpc
        · rw [upd_other s.pc t _ u hut] at hu; exact hu
      have hw2 : s.pc w = .wroteCounter ∨ s.pc w = .done := by
        by_cases hwt : w = t
        · subst hwt; exact Or.inl hpc
        · rw [upd_other s.pc t _ w hwt] at hw; exact hw
      exact i4 u w hne hu2 hw2

theorem ConcInv_reachable (c0 : Int) (s : ConcState)
    (h : Relation.ReflTransGen AllocStep (initState c0) s) : ConcInv s := by
  induction h with
  | refl => exact ConcInv_init c0
  | tail _ hstep ih => exact ConcInv_step _ _ ih hstep

/-- Claim C9: mutual exclusion of allocations.  In every reachable state of
two racing paste submissions, the two threads are never simultaneously
inside the allocation critical section (the lock serializes the whole
read-increment-write-store sequence), and whenever both submissions have
completed they hold different ordinals. -/
theorem no_duplicate_ordinals (c0 : Int) (s : ConcState)
    (h : Relation.ReflTransGen AllocStep (initState c0) s) :
    ¬(inCS (s.pc false) ∧ inCS (s.pc true)) ∧
    (s.pc false = .done → s.pc true = .done → s.ord false ≠ s.ord true) := by
  obtain ⟨i1, _, _, i4⟩ := ConcInv_reachable c0 s h
  constructor
  · rintro ⟨⟨hf1, hf2⟩, ⟨ht1, ht2⟩⟩
    have h1 := i1 false hf1 hf2
    have h2 := i1 true ht1 ht2
    rw [h1] at h2
    injection h2 with h3
    cases h3
  · intro hf ht
    exact i4 false true (by simp) (Or.inr hf) (Or.inr ht)

/-- Intermediate states of one serialized execution of the two-thread
allocation system, used by the witness below. -/
def c9s0 : ConcState := initState 0

def c9s1 : ConcState :=
  { c9s0 with lockOwner := some false, pc := upd c9s0.pc false .locked }

def c9s2 : ConcState :=
  { c9s1 with tmp := upd c9s1.tmp false c9s1.counter, pc := upd c9s1.pc false .readDone }

def c9s3 : ConcState :=
  { c9s2 with counter := c9s2.tmp false + 1,
              ord := upd c9s2.ord false (some (c9s2.tmp false + 1)),
              pc := upd c9s2.pc false .wroteCounter }

def c9s4 : ConcState :=
  { c9s3 with lockOwner := none, pc := upd c9s3.pc false .done }

def c9s5 : ConcState :=
  { c9s4 with lockOwner := some true, pc := upd c9s4.pc true .locked }

def c9s6 : ConcState :=
  { c9s5 with tmp := upd c9s5.tmp true c9s5.counter, pc := upd c9s5.pc true .readDone }

def c9s7 : ConcState :=
  { c9s6 with counter := c9s6.tmp true + 1,
              ord := upd c9s6.ord true (some (c9s6.tmp true + 1)),
              pc := upd c9s6.pc true .wroteCounter }

def c9s8 : ConcState :=
  { c9s7 with lockOwner := none, pc := upd c9s7.pc true .done }

/-- One complete execution: both threads run the whole allocation. -/
theorem c9_exec : Relation.ReflTransGen AllocStep (initState 0) c9s8 := by
  have h1 : AllocStep c9s0 c9s1 := .acquire c9s0 false rfl rfl
  have h2 : AllocStep c9s1 c9s2 := .readCounter c9s1 false rfl rfl
  have h3 : AllocStep c9s2 c9s3 := .writeCounter c9s2 false rfl rfl
  have h4 : AllocStep c9s3 c9s4 := .writeContentRelease c9s3 false rfl rfl
  have h5 : AllocStep c9s4 c9s5 := .acquire c9s4 true rfl rfl
  have h6 : AllocStep c9s5 c9s6 := .readCounter c9s5 true rfl rfl
  have h7 : AllocStep c9s6 c9s7 := .writeCounter c9s6 true rfl rfl
  have h8 : AllocStep c9s7 c9s8 := .writeContentRelease c9s7 true rfl rfl
  exact ((((((((Relation.ReflTransGen.refl).tail h1).tail h2).tail h3).tail
    h4).tail h5).tail h6).tail h7).tail h8

/-- Witness for claim C9: after a complete two-thread execution both
ordinals exist and differ. -/
theorem no_duplicate_ordinals_witness :
    c9s8.pc false = .done ∧ c9s8.pc true = .done ∧ c9s8.ord false ≠ c9s8.ord true :=
  ⟨rfl, rfl, (no_duplicate_ordinals 0 c9s8 c9_exec).2 rfl rfl⟩
